import Mathlib

/-!
# Verification of torecsys numeric utilities and layers

Shallow embedding of the functions of the `torecsys` repository that the
specification talks about, together with theorems settling the spec claims.

Conventions of the embedding:
* Python integers become `ℕ` (all claims constrain them to be non-negative);
  tensor entries become `ℚ` where the code only uses field arithmetic, and `ℝ`
  where it applies `exp`, `sqrt` or a `p`-th root.
* A 2-D tensor is a `List` of rows; a 3-D tensor a `List` of 2-D tensors.
* `int(numer / denom)` in `combination` is big-int true division in Python 3:
  the exact quotient (here an integer, since `denom` divides `numer`) is
  correctly rounded to an IEEE binary64 and then truncated, which is the
  identity on integral doubles.  `roundToDouble` models that rounding, so
  `combination` can be wrong once the quotient reaches `2^53`.
* The entries of `subsampling`'s data are `PyVal` (a number or a string):
  an object-dtype column may hold an unorderable mixture of both, in which
  case the sort inside `np.unique` raises `TypeError`.
* `np.sqrt` inside `subsampling` is abstracted by a function parameter
  `sqrtF : ℚ → ℚ`: none of the claims about `subsampling` depend on the values
  it returns, so every theorem below is quantified over it.
-/

namespace Torecsys

/-! ## `torecsys/utils/operations.py` -/

/-- Number of binary digits of `n` (0 for 0).  The fuel argument makes the
recursion structural, so the function evaluates inside the kernel. -/
def bitLenAux : ℕ → ℕ → ℕ
  | 0, _ => 0
  | fuel + 1, n => if n = 0 then 0 else bitLenAux fuel (n / 2) + 1

def bitLen (n : ℕ) : ℕ := bitLenAux n n

/-- Round a natural number to the nearest IEEE binary64-representable value
(round-to-nearest, ties-to-even), as CPython's big-int true division does to
the exact quotient.  Numbers below `2^53` are exact; otherwise the number is
rounded to a multiple of `2^(bitLen - 53)`.  (The overflow-to-`OverflowError`
region `≥ 2^1024` is far outside every input considered here.) -/
def roundToDouble (q : ℕ) : ℕ :=
  if q < 2 ^ 53 then q
  else
    let e := bitLen q - 53
    let m := q / 2 ^ e
    let rem := q % 2 ^ e
    let half := 2 ^ (e - 1)
    if rem < half then m * 2 ^ e
    else if half < rem then (m + 1) * 2 ^ e
    else if m % 2 = 0 then m * 2 ^ e
    else (m + 1) * 2 ^ e

/-- Embedding of `combination` from `torecsys/utils/operations.py`:
`r = min(r, n - r)`, `numer = reduce(op.mul, range(n, n - r, -1), 1)`
(the descending product `n * (n-1) * ... * (n-r+1)`),
`denom = reduce(op.mul, range(1, r+1), 1)` (that is `r!`), result
`int(numer / denom)`.  `denom` divides `numer`, so Python's float true
division returns the correctly rounded binary64 of the natural-number
quotient, and `int` truncation is the identity on it: the result is
`roundToDouble` of the exact quotient. -/
def combination (n r : ℕ) : ℕ :=
  let r2 := min r (n - r)
  let numer := ((List.range r2).map (fun k => n - k)).foldl (· * ·) 1
  let denom := ((List.range r2).map (fun k => k + 1)).foldl (· * ·) 1
  roundToDouble (numer / denom)

/-- Embedding of `dummy_attention` from `torecsys/utils/operations.py`:
returns the pair `(key, torch.Tensor([]))`, ignoring `query` and `value`.
A tensor is modelled as its (flattened) list of entries, the empty tensor
being `[]`. -/
def dummy_attention (key _query _value : List ℚ) : List ℚ × List ℚ :=
  (key, [])

/-- A Python value that is either a plain `float` or a 0-dimensional torch
tensor, as produced by `regularize`. -/
inductive PyNum where
  | float (x : ℝ)
  | tensor (x : ℝ)

/-- Python `+` on such values: adding a tensor to anything yields a tensor
(this is what `loss += torch.norm(...)` does to the initial float `0.0`). -/
def PyNum.add : PyNum → PyNum → PyNum
  | .float a, .float b => .float (a + b)
  | .float a, .tensor b => .tensor (a + b)
  | .tensor a, .float b => .tensor (a + b)
  | .tensor a, .tensor b => .tensor (a + b)

/-- Python `*` of such a value with a plain float: the result keeps the kind
of the left operand (`0.0 * weight_decay` is a float, `tensor * weight_decay`
a tensor). -/
def PyNum.mulFloat : PyNum → ℝ → PyNum
  | .float a, c => .float (a * c)
  | .tensor a, c => .tensor (a * c)

/-- `torch.norm(param, p=norm)`: the `p`-th order norm
`(Σ |xᵢ|^p)^(1/p)` of the flattened parameter entries. -/
noncomputable def torchNorm (param : List ℝ) (norm : ℕ) : ℝ :=
  ((param.map (fun x => |x| ^ norm)).sum) ^ ((norm : ℝ))⁻¹

/-- Python `"weight" in name`: substring containment test. -/
def nameHasWeight (name : String) : Bool :=
  decide ("weight".toList <:+: name.toList)

/-- Embedding of `regularize` from `torecsys/utils/operations.py`: starting
from the float `0.0`, add `torch.norm(param, p=norm)` for every `(name, param)`
whose name contains `"weight"`, and multiply the result by `weight_decay`.
A parameter is modelled as its name and its flattened list of entries. -/
noncomputable def regularize (parametes : List (String × List ℝ))
    (weight_decay : ℝ) (norm : ℕ) : PyNum :=
  let loss : PyNum := parametes.foldl
    (fun loss p =>
      if nameHasWeight p.1 then loss.add (.tensor (torchNorm p.2 norm)) else loss)
    (.float 0)
  loss.mulFloat weight_decay

/-- Embedding of `squash` from `torecsys/utils/operations.py`.  The input
tensor is modelled as a function on an index space `ι × κ`, where `κ` is the
axis named by `dim` (the remaining axes are bundled into `ι`); the sum of
squares along `dim` with `keepdim=True` is then the sum over `κ`, broadcast
back over `κ` in the final expression. -/
noncomputable def squash {ι κ : Type} [Fintype κ] (inputs : ι → κ → ℝ) :
    ι → κ → ℝ := fun i =>
  let squared_norm := ∑ k, (inputs i k) ^ 2
  fun k => (squared_norm / (1 + squared_norm)) *
    (inputs i k / (Real.sqrt squared_norm + 1e-8))

/-! ## `torecsys/data/subsampling/subsampler.py` -/

/-- An entry of an (object-dtype) `ndarray` or `DataFrame` column: a number
or a string.  Python's `<` between a number and a string raises
`TypeError`, so a column mixing both kinds cannot be sorted. -/
inductive PyVal where
  | num (q : ℚ)
  | str (s : String)
  deriving DecidableEq

def PyVal.isNum : PyVal → Bool
  | .num _ => true
  | .str _ => false

/-- A Python value passed as `data` to `subsampling`: a `np.ndarray`, a
`pd.DataFrame` (both modelled as their list of rows), or any other object. -/
inductive PyData where
  | ndarray (rows : List (List PyVal))
  | dataframe (rows : List (List PyVal))
  | other

/-- The rows held by a `PyData` (empty for a non-array, non-frame object). -/
def PyData.rows : PyData → List (List PyVal)
  | .ndarray rows => rows
  | .dataframe rows => rows
  | .other => []

/-- Whether the sort inside `np.unique(columns)` raises `TypeError`: that
happens exactly when the column holds both a number and a string, since the
sort must then compare a number with a string using Python `<`. -/
def columnUnorderable (column : List PyVal) : Bool :=
  column.any PyVal.isNum && column.any (fun v => !v.isNum)

/-- The two exceptions `subsampling` can raise. -/
inductive SubError where
  | valueError
  | typeError
  deriving DecidableEq

/-- The `formula_func` selection at the top of `subsampling`:
`"code"` gives `λ f t, (f - t) / f - sqrt(t / f)`, `"paper"` gives
`λ f t, 1 - sqrt(t / f)`, anything else raises `ValueError` (here: `none`).
`sqrtF` abstracts `np.sqrt`. -/
def formulaFuncOf (sqrtF : ℚ → ℚ) (formula : String) : Option (ℚ → ℚ → ℚ) :=
  if formula = "code" then some (fun f t => (f - t) / f - sqrtF (t / f))
  else if formula = "paper" then some (fun f t => 1 - sqrtF (t / f))
  else none

/-- The row selection of `subsampling` given the drop-probability function:
keep row `i` exactly when `rand_prob[i] > prob[data[i, key]]`. -/
def subsampleRows (rows : List (List PyVal)) (key : ℕ) (probOf : PyVal → ℚ)
    (randProb : List ℚ) : List (List PyVal) :=
  ((rows.enum.filter
    (fun ir => randProb.getD ir.1 0 > probOf (ir.2.getD key (.num 0)))).map
      Prod.snd)

/-- The kept rows of `subsampling` for a given formula: select column `key`,
compute each token's frequency `count / total`, map it through the formula
to a drop probability, and keep exactly the rows whose random draw exceeds
the drop probability of their token.  `np.unique` + the
`dict(zip(uniques, prob))` lookup is embedded as the direct map
`v ↦ formulaFunc (count v / total) threshold`, which agrees with the dict on
every value occurring in the column. -/
def subsampleKept (rows : List (List PyVal)) (key : ℕ)
    (formulaFunc : ℚ → ℚ → ℚ) (threshold : ℚ) (randProb : List ℚ) :
    List (List PyVal) :=
  let column := rows.map (fun row => row.getD key (.num 0))
  let probOf := fun v =>
    formulaFunc ((column.count v : ℚ) / (column.length : ℚ)) threshold
  subsampleRows rows key probOf randProb

/-- Embedding of `subsampling` from `torecsys/data/subsampling/subsampler.py`.
First the `formula` dispatch (`ValueError` on an unknown name), then the
`data`-type dispatch (`TypeError` for anything that is neither an `ndarray`
nor a `DataFrame`).  Then `np.unique(columns)` sorts column `key`: on an
unorderable number/string mixture the sort raises `TypeError`.  Otherwise
the kept rows are assembled by `cat_func`: for an `ndarray`,
`np.vstack(sampled_data)` raises `ValueError` when the kept selection is
empty (`need at least one array to concatenate`), while
`pd.DataFrame(samp, columns=...)` accepts an empty selection.  The `key` is
a positional column index (`d[:, key]` / `d.iloc[:, key]`).  The random
draws `np.random.random(size=(data.shape[0]))` are an explicit argument
`randProb`. -/
def subsampling (sqrtF : ℚ → ℚ) (data : PyData) (key : ℕ) (formula : String)
    (threshold : ℚ) (randProb : List ℚ) :
    Except SubError (List (List PyVal)) :=
  match formulaFuncOf sqrtF formula with
  | none => .error .valueError
  | some formulaFunc =>
    match data with
    | .other => .error .typeError
    | .ndarray rows =>
      if columnUnorderable (rows.map (fun row => row.getD key (.num 0))) then
        .error .typeError
      else
        let sampled := subsampleKept rows key formulaFunc threshold randProb
        if sampled = [] then .error .valueError
        else .ok sampled
    | .dataframe rows =>
      if columnUnorderable (rows.map (fun row => row.getD key (.num 0))) then
        .error .typeError
      else .ok (subsampleKept rows key formulaFunc threshold randProb)

/-! ## `torecsys/inputs/base/single_index_emb.py` -/

/-- Embedding lookup `nn.Embedding(field_size, embed_size)` applied to an
index tensor of shape `(B, 1)` (or more generally `(B, N)`): each index is
replaced by the corresponding row of the weight matrix.  This is the whole of
`SingleIndexEmbedding.forward` (the `rename` calls only manage dimension
names). -/
def singleIndexEmbeddingForward (weight : List (List ℚ))
    (inputs : List (List ℕ)) : List (List (List ℚ)) :=
  inputs.map (fun row => row.map (fun idx => weight.getD idx []))

/-! ## `torecsys/inputs/base/multi_indices_field_aware_emb.py` -/

/-- `np.cumsum`: inclusive prefix sums. -/
def cumsum : List ℕ → List ℕ
  | [] => []
  | x :: xs => x :: (cumsum xs).map (x + ·)

/-- The `offsets` attribute of `MultiIndicesFieldAwareEmbedding`:
`(0, *np.cumsum(field_sizes)[:-1])`, the exclusive prefix sums of
`field_sizes`. -/
def fieldOffsets (fieldSizes : List ℕ) : List ℕ :=
  0 :: (cumsum fieldSizes).dropLast

/-- Embedding of `MultiIndicesFieldAwareEmbedding.forward`: per batch row,
shift entry `i` by `offsets[i]` (the broadcast `inputs + self.offsets`), then
concatenate along the row dimension the lookups of the shifted indices in
each of the `num_fields = tables.length` embedding tables
(`torch.cat([self.embeddings[j](inputs) for j in range(num_fields)], dim=1)`).
Each table is `nn.Embedding(sum(field_sizes), embed_size)`, modelled as its
weight matrix. -/
def multiIndicesFieldAwareForward (fieldSizes : List ℕ)
    (tables : List (List (List ℚ))) (inputs : List (List ℕ)) :
    List (List (List ℚ)) :=
  inputs.map (fun row =>
    let shifted := List.zipWith (· + ·) row (fieldOffsets fieldSizes)
    tables.flatMap (fun table => shifted.map (fun idx => table.getD idx [])))

/-! ## `torecsys/layers/ctr/mixture_of_experts.py` -/

/-- `nn.Linear(inputs_size, output_size)` on a single input vector: row `o`
of the output is `⟨W_o, x⟩ + c_o`. -/
def linearForward (W : List (List ℝ)) (c : List ℝ) (x : List ℝ) : List ℝ :=
  (W.zip c).map (fun wc => (List.zipWith (· * ·) wc.1 x).sum + wc.2)

/-- `nn.Softmax()` on a single vector (for a 2-D batch the implicit `dim`
is the feature axis, so it acts row-wise): `xᵢ ↦ exp xᵢ / Σⱼ exp xⱼ`. -/
noncomputable def softmax (xs : List ℝ) : List ℝ :=
  xs.map (fun xi => Real.exp xi / (xs.map Real.exp).sum)

/-- One gate of `MixtureOfExpertsLayer`: `nn.Sequential` of a linear layer
(weight matrix and bias) and a softmax. -/
noncomputable def gateForward (W : List (List ℝ)) (c : List ℝ) (x : List ℝ) :
    List ℝ :=
  softmax (linearForward W c x)

/-- Embedding of `MixtureOfExpertsLayer.forward`.  Experts are arbitrary
modules (`expert_func` is a constructor argument), modelled as functions on
the flattened input; each gate is a linear layer plus softmax, modelled by
its weight matrix and bias.  Per batch element: flatten the `(N, E)` input to
a vector of length `N * E`; concatenate the experts' outputs along the output
axis; apply every gate to the flattened input; the einsum
`"ik,ijk->ijk"` makes entry `(g, k)` of the result the product of entry `k`
of the concatenated experts' outputs with entry `k` of gate `g`'s output. -/
noncomputable def mixtureOfExpertsForward
    (experts : List (List ℝ → List ℝ)) (gates : List (List (List ℝ) × List ℝ))
    (embInputs : List (List (List ℝ))) : List (List (List ℝ)) :=
  embInputs.map (fun rows =>
    let flat := rows.flatten
    let expertsOutput := (experts.map (fun e => e flat)).flatten
    gates.map (fun g =>
      List.zipWith (· * ·) expertsOutput (gateForward g.1 g.2 flat)))

/-! ## Theorems -/

/-- `reduce(op.mul, map f (range m), 1)` is the product of `f` over `range m`. -/
theorem foldl_mul_range (m : ℕ) (f : ℕ → ℕ) :
    ((List.range m).map f).foldl (· * ·) 1 = ∏ i in Finset.range m, f i := by
  rw [← List.prod_eq_foldl]
  rfl

theorem roundToDouble_small (q : ℕ) (h : q < 2 ^ 53) : roundToDouble q = q := by
  rw [roundToDouble, if_pos h]

/-- C1 counterexample: at `n = 63`, `r = 31` the hypothesis `0 ≤ 31 ≤ 63`
holds, yet `combination 63 31` is not the binomial coefficient `C(63, 31)`:
the quotient `C(63, 31) = 916312070471295267` exceeds `2^53`, so the float
division rounds it to `916312070471295232`. -/
theorem combination_float_counterexample :
    31 ≤ 63 ∧ combination 63 31 ≠ Nat.choose 63 31 := by
  refine ⟨by decide, ?_⟩
  rw [Nat.choose_eq_descFactorial_div_factorial]
  decide

/-- C1 (amended): for all `0 ≤ r ≤ n` such that the binomial coefficient is
below `2^53` (hence exactly representable as a binary64), `combination n r`
is the binomial coefficient `n! / (r! * (n-r)!)`, i.e. the number of
`r`-element combinations of `n` elements. -/
theorem combination_eq_choose (n r : ℕ) (h : r ≤ n)
    (hsmall : n.choose r < 2 ^ 53) :
    combination n r = n.choose r := by
  have hmin : n.choose (min r (n - r)) = n.choose r := by
    rcases le_total r (n - r) with hle | hle
    · rw [min_eq_left hle]
    · rw [min_eq_right hle, Nat.choose_symm h]
  simp only [combination]
  rw [foldl_mul_range, foldl_mul_range, ← Nat.descFactorial_eq_prod_range,
    Finset.prod_range_add_one_eq_factorial,
    ← Nat.choose_eq_descFactorial_div_factorial, hmin]
  exact roundToDouble_small _ hsmall

/-- Witness for C1 at `n = 5`, `r = 2`. -/
theorem combination_eq_choose_witness :
    (2 ≤ 5 ∧ Nat.choose 5 2 < 2 ^ 53) ∧ combination 5 2 = Nat.choose 5 2 :=
  ⟨⟨by decide, by decide⟩, combination_eq_choose 5 2 (by decide) (by decide)⟩

/-- C8: `dummy_attention` returns `(key, empty tensor)` for all inputs, and
its result does not depend on `query` or `value`. -/
theorem dummy_attention_ignores_query_value (k q v q2 v2 : List ℚ) :
    dummy_attention k q v = (k, []) ∧
      dummy_attention k q v = dummy_attention k q2 v2 :=
  ⟨rfl, rfl⟩

/-- C7: `squash` returns `(s / (1 + s)) * (x / (sqrt s + 1e-8))` where `s` is
the sum of squares of `x` along the reduced axis, kept broadcastable. -/
theorem squash_formula {ι κ : Type} [Fintype κ] (inputs : ι → κ → ℝ)
    (i : ι) (k : κ) :
    squash inputs i k =
      ((∑ j, inputs i j ^ 2) / (1 + ∑ j, inputs i j ^ 2)) *
        (inputs i k / (Real.sqrt (∑ j, inputs i j ^ 2) + 1e-8)) := rfl

/-- C4 counterexample: with the valid formula `"paper"` and a zero-row
`ndarray`, the kept-row selection is empty, so `np.vstack([])` raises
`ValueError` even though the formula is valid: `ValueError` does not imply
an invalid formula. -/
theorem subsampling_vstack_counterexample :
    subsampling id (PyData.ndarray []) 0 "paper" 0 [] =
        Except.error SubError.valueError ∧
      ¬(("paper" : String) ≠ "code" ∧ ("paper" : String) ≠ "paper") :=
  ⟨rfl, fun h => h.2 rfl⟩

/-- C4 (amended): `subsampling` raises `ValueError` exactly when `formula`
is neither `"code"` nor `"paper"` — the formula check precedes the data-type
check, so for an invalid formula this holds regardless of the type or
contents of `data` — or when the formula is valid and `data` is an
`ndarray` whose column is orderable (so `np.unique` succeeds) but whose
kept-row selection is empty, where `np.vstack([])` raises `ValueError`. -/
theorem subsampling_valueError_iff (sqrtF : ℚ → ℚ) (data : PyData) (key : ℕ)
    (formula : String) (threshold : ℚ) (randProb : List ℚ) :
    subsampling sqrtF data key formula threshold randProb =
        Except.error SubError.valueError ↔
      (formula ≠ "code" ∧ formula ≠ "paper") ∨
        ∃ f, formulaFuncOf sqrtF formula = some f ∧
          ∃ rows, data = PyData.ndarray rows ∧
            columnUnorderable (rows.map
              (fun row => row.getD key (PyVal.num 0))) = false ∧
            subsampleKept rows key f threshold randProb = [] := by
  cases hfc : formulaFuncOf sqrtF formula with
  | none =>
    have hne : formula ≠ "code" ∧ formula ≠ "paper" := by
      constructor <;> intro h <;> subst h <;> simp [formulaFuncOf] at hfc
    unfold subsampling
    rw [hfc]
    exact ⟨fun _ => Or.inl hne, fun _ => rfl⟩
  | some f =>
    have hne : ¬(formula ≠ "code" ∧ formula ≠ "paper") := by
      intro hcontra
      simp [formulaFuncOf, hcontra.1, hcontra.2] at hfc
    unfold subsampling
    rw [hfc]
    cases data with
    | other =>
      simp only []
      constructor
      · intro h
        exact SubError.noConfusion (Except.error.inj h)
      · rintro (hcontra | ⟨f2, _, rows2, hr2, _, _⟩)
        · exact absurd hcontra hne
        · exact PyData.noConfusion hr2
    | dataframe rows =>
      simp only []
      by_cases hu : columnUnorderable (rows.map
          (fun row => row.getD key (PyVal.num 0))) = true
      · rw [if_pos hu]
        constructor
        · intro h
          exact SubError.noConfusion (Except.error.inj h)
        · rintro (hcontra | ⟨f2, _, rows2, hr2, _, _⟩)
          · exact absurd hcontra hne
          · exact PyData.noConfusion hr2
      · rw [if_neg hu]
        constructor
        · intro h
          exact Except.noConfusion h
        · rintro (hcontra | ⟨f2, _, rows2, hr2, _, _⟩)
          · exact absurd hcontra hne
          · exact PyData.noConfusion hr2
    | ndarray rows =>
      simp only []
      by_cases hu : columnUnorderable (rows.map
          (fun row => row.getD key (PyVal.num 0))) = true
      · rw [if_pos hu]
        constructor
        · intro h
          exact SubError.noConfusion (Except.error.inj h)
        · rintro (hcontra | ⟨f2, hf2, rows2, hr2, hunord, _⟩)
          · exact absurd hcontra hne
          · obtain rfl : rows2 = rows := (PyData.ndarray.inj hr2).symm
            rw [hu] at hunord
            exact Bool.noConfusion hunord
      · rw [if_neg hu]
        have hu2 : columnUnorderable (rows.map
            (fun row => row.getD key (PyVal.num 0))) = false := by
          simp only [Bool.not_eq_true] at hu
          exact hu
        by_cases hs : subsampleKept rows key f threshold randProb = []
        · rw [if_pos hs]
          exact ⟨fun _ => Or.inr ⟨f, rfl, rows, rfl, hu2, hs⟩, fun _ => rfl⟩
        · rw [if_neg hs]
          constructor
          · intro h
            exact Except.noConfusion h
          · rintro (hcontra | ⟨f2, hf2, rows2, hr2, _, hkept⟩)
            · exact absurd hcontra hne
            · obtain rfl : f2 = f := (Option.some.inj hf2).symm
              obtain rfl : rows2 = rows := (PyData.ndarray.inj hr2).symm
              exact absurd hkept hs

/-- C5 counterexample: an `ndarray` passes the data-type check, yet a column
mixing a number and a string makes the sort inside `np.unique` raise
`TypeError`: `TypeError` does not imply a wrong data type. -/
theorem subsampling_unorderable_counterexample :
    subsampling id (PyData.ndarray [[PyVal.num 1], [PyVal.str "a"]]) 0
        "paper" 0 [] = Except.error SubError.typeError ∧
      PyData.ndarray [[PyVal.num 1], [PyVal.str "a"]] ≠ PyData.other :=
  ⟨rfl, fun h => PyData.noConfusion h⟩

/-- C5 (amended): for `formula` in `{"code", "paper"}`, `subsampling` raises
`TypeError` exactly when `data` is neither an `ndarray` nor a `DataFrame`,
or when its selected column holds an unorderable number/string mixture, on
which the sort inside `np.unique` raises `TypeError`. -/
theorem subsampling_typeError_iff (sqrtF : ℚ → ℚ) (data : PyData) (key : ℕ)
    (formula : String) (threshold : ℚ) (randProb : List ℚ)
    (hf : formula = "code" ∨ formula = "paper") :
    subsampling sqrtF data key formula threshold randProb =
        Except.error SubError.typeError ↔
      data = PyData.other ∨
        columnUnorderable (data.rows.map
          (fun row => row.getD key (PyVal.num 0))) = true := by
  have hfc : ∃ f, formulaFuncOf sqrtF formula = some f := by
    rcases hf with h | h <;> subst h <;> exact ⟨_, rfl⟩
  obtain ⟨f, hfc⟩ := hfc
  unfold subsampling
  rw [hfc]
  cases data with
  | other => exact ⟨fun _ => Or.inl rfl, fun _ => rfl⟩
  | ndarray rows =>
    simp only [PyData.rows]
    by_cases hu : columnUnorderable (rows.map
        (fun row => row.getD key (PyVal.num 0))) = true
    · rw [if_pos hu]
      exact ⟨fun _ => Or.inr hu, fun _ => rfl⟩
    · rw [if_neg hu]
      by_cases hs : subsampleKept rows key f threshold randProb = []
      · rw [if_pos hs]
        constructor
        · intro h
          exact SubError.noConfusion (Except.error.inj h)
        · rintro (h | h)
          · exact PyData.noConfusion h
          · exact absurd h hu
      · rw [if_neg hs]
        constructor
        · intro h
          exact Except.noConfusion h
        · rintro (h | h)
          · exact PyData.noConfusion h
          · exact absurd h hu
  | dataframe rows =>
    simp only [PyData.rows]
    by_cases hu : columnUnorderable (rows.map
        (fun row => row.getD key (PyVal.num 0))) = true
    · rw [if_pos hu]
      exact ⟨fun _ => Or.inr hu, fun _ => rfl⟩
    · rw [if_neg hu]
      constructor
      · intro h
        exact Except.noConfusion h
      · rintro (h | h)
        · exact PyData.noConfusion h
        · exact absurd h hu

/-- Witness for C5 with `formula = "paper"` and a non-array, non-frame
`data`. -/
theorem subsampling_typeError_iff_witness :
    ("paper" = "code" ∨ "paper" = "paper") ∧
      (subsampling id PyData.other 0 "paper" 0 [] =
          Except.error SubError.typeError ↔
        PyData.other = PyData.other ∨
          columnUnorderable (PyData.other.rows.map
            (fun row => row.getD 0 (PyVal.num 0))) = true) :=
  ⟨Or.inr rfl, subsampling_typeError_iff id PyData.other 0 "paper" 0 []
    (Or.inr rfl)⟩

/-- The selected rows are a sublist of the input rows. -/
theorem subsampleRows_sublist (rows : List (List PyVal)) (key : ℕ)
    (probOf : PyVal → ℚ) (randProb : List ℚ) :
    (subsampleRows rows key probOf randProb).Sublist rows := by
  have h1 := (List.filter_sublist (l := rows.enum)
    (p := fun ir => randProb.getD ir.1 0 > probOf (ir.2.getD key (.num 0))))
  have h2 := h1.map Prod.snd
  rwa [List.enum_map_snd] at h2

theorem subsampleKept_sublist (rows : List (List PyVal)) (key : ℕ)
    (formulaFunc : ℚ → ℚ → ℚ) (threshold : ℚ) (randProb : List ℚ) :
    (subsampleKept rows key formulaFunc threshold randProb).Sublist rows := by
  simp only [subsampleKept]
  exact subsampleRows_sublist rows key _ randProb

/-- C9: whenever `subsampling` returns successfully, the returned rows form a
sublist of the input rows: every returned row is a row of the input, kept in
the input's relative order, and there are at most as many of them.  (The
embedding is pure: the code only reads `data` and builds a fresh list, so the
input is never modified.) -/
theorem subsampling_ok_sublist (sqrtF : ℚ → ℚ) (data : PyData) (key : ℕ)
    (formula : String) (threshold : ℚ) (randProb : List ℚ)
    (out : List (List PyVal))
    (h : subsampling sqrtF data key formula threshold randProb =
      Except.ok out) :
    out.Sublist data.rows ∧ (∀ row ∈ out, row ∈ data.rows) ∧
      out.length ≤ data.rows.length := by
  unfold subsampling at h
  cases hf : formulaFuncOf sqrtF formula with
  | none => rw [hf] at h; simp at h
  | some formulaFunc =>
    rw [hf] at h
    have hsub : out.Sublist data.rows := by
      cases data with
      | other => simp at h
      | ndarray rows =>
        simp only [] at h
        by_cases hu : columnUnorderable (rows.map
            (fun row => row.getD key (PyVal.num 0))) = true
        · rw [if_pos hu] at h
          exact Except.noConfusion h
        · rw [if_neg hu] at h
          by_cases hs : subsampleKept rows key formulaFunc threshold
              randProb = []
          · rw [if_pos hs] at h
            exact Except.noConfusion h
          · rw [if_neg hs] at h
            rw [← Except.ok.inj h]
            exact subsampleKept_sublist _ _ _ _ _
      | dataframe rows =>
        simp only [] at h
        by_cases hu : columnUnorderable (rows.map
            (fun row => row.getD key (PyVal.num 0))) = true
        · rw [if_pos hu] at h
          exact Except.noConfusion h
        · rw [if_neg hu] at h
          rw [← Except.ok.inj h]
          exact subsampleKept_sublist _ _ _ _ _
    exact ⟨hsub, fun row hr => hsub.subset hr, hsub.length_le⟩

/-- Witness for C9: a one-row array whose single row is kept. -/
theorem subsampling_ok_sublist_witness :
    subsampling id (PyData.ndarray [[PyVal.num 1]]) 0 "paper" 0 [2] =
        Except.ok [[PyVal.num 1]] ∧
      ([[PyVal.num 1]].Sublist (PyData.ndarray [[PyVal.num 1]]).rows ∧
        (∀ row ∈ [[PyVal.num 1]],
          row ∈ (PyData.ndarray [[PyVal.num 1]]).rows) ∧
        [[PyVal.num 1]].length ≤
          (PyData.ndarray [[PyVal.num 1]]).rows.length) :=
  have h : subsampling id (PyData.ndarray [[PyVal.num 1]]) 0 "paper" 0 [2] =
      Except.ok [[PyVal.num 1]] := by
    have hf : formulaFuncOf id "paper" = some (fun f t => 1 - id (t / f)) :=
      rfl
    unfold subsampling
    rw [hf]
    norm_num [subsampleKept, subsampleRows, columnUnorderable, PyVal.isNum,
      List.enum, List.enumFrom, List.filter_cons, List.count_cons,
      decide_eq_true_eq]
  ⟨h, subsampling_ok_sublist id (PyData.ndarray [[PyVal.num 1]]) 0 "paper" 0
    [2] [[PyVal.num 1]] h⟩

/-- C6: `SingleIndexEmbedding.forward` on a `(B, 1)` index tensor of valid
row indices returns a `(B, 1, E)` tensor whose `(b, 0)`-th vector is row
`inputs[b][0]` of the embedding weight matrix. -/
theorem singleIndexEmbedding_forward_lookup (weight : List (List ℚ)) (E : ℕ)
    (inputs : List (List ℕ))
    (hrow : ∀ row ∈ inputs, row.length = 1)
    (hidx : ∀ row ∈ inputs, ∀ i ∈ row, i < weight.length)
    (hE : ∀ w ∈ weight, w.length = E) :
    (singleIndexEmbeddingForward weight inputs).length = inputs.length ∧
      ∀ b, b < inputs.length →
        ((singleIndexEmbeddingForward weight inputs).getD b []).length = 1 ∧
        ((singleIndexEmbeddingForward weight inputs).getD b []).getD 0 [] =
          weight.getD ((inputs.getD b []).getD 0 0) [] ∧
        (((singleIndexEmbeddingForward weight inputs).getD b []).getD 0
          []).length = E := by
  unfold singleIndexEmbeddingForward
  refine ⟨List.length_map _ _, fun b hb => ?_⟩
  have hb2 : b < (inputs.map
      (fun row => row.map (fun idx => weight.getD idx []))).length := by
    simpa using hb
  rw [List.getD_eq_getElem _ _ hb2, List.getElem_map]
  have hmem : inputs[b] ∈ inputs := List.getElem_mem hb
  have hlen : inputs[b].length = 1 := hrow _ hmem
  have h0 : 0 < inputs[b].length := by omega
  have h0m : 0 < (inputs[b].map (fun idx => weight.getD idx [])).length := by
    simpa using h0
  refine ⟨by simpa using hlen, ?_, ?_⟩
  · rw [List.getD_eq_getElem _ _ h0m, List.getElem_map,
      List.getD_eq_getElem inputs _ hb, List.getD_eq_getElem _ _ h0]
  · rw [List.getD_eq_getElem _ _ h0m, List.getElem_map]
    have hidxb : inputs[b][0] < weight.length :=
      hidx _ hmem _ (List.getElem_mem h0)
    rw [List.getD_eq_getElem _ _ hidxb]
    exact hE _ (List.getElem_mem hidxb)

/-- Witness for C6 with a 3-row weight matrix and two batch elements. -/
theorem singleIndexEmbedding_forward_lookup_witness :
    ((∀ row ∈ [[2], [0]], row.length = 1) ∧
      (∀ row ∈ [[2], [0]], ∀ i ∈ row,
        i < [[(5 : ℚ)], [6], [7]].length) ∧
      (∀ w ∈ [[(5 : ℚ)], [6], [7]], w.length = 1)) ∧
      ((singleIndexEmbeddingForward [[(5 : ℚ)], [6], [7]]
          [[2], [0]]).length = [[2], [0]].length ∧
        ∀ b, b < [[2], [0]].length →
          ((singleIndexEmbeddingForward [[(5 : ℚ)], [6], [7]]
            [[2], [0]]).getD b []).length = 1 ∧
          ((singleIndexEmbeddingForward [[(5 : ℚ)], [6], [7]]
            [[2], [0]]).getD b []).getD 0 [] =
            [[(5 : ℚ)], [6], [7]].getD (([[2], [0]].getD b []).getD 0 0) [] ∧
          (((singleIndexEmbeddingForward [[(5 : ℚ)], [6], [7]]
            [[2], [0]]).getD b []).getD 0 []).length = 1) :=
  ⟨⟨by decide, by decide, by decide⟩,
    singleIndexEmbedding_forward_lookup [[(5 : ℚ)], [6], [7]] 1 [[2], [0]]
      (by decide) (by decide) (by decide)⟩

theorem cumsum_length (l : List ℕ) : (cumsum l).length = l.length := by
  induction l with
  | nil => rfl
  | cons x xs ih => simp [cumsum, ih]

theorem cumsum_getD (l : List ℕ) :
    ∀ i, i < l.length → (cumsum l).getD i 0 = (l.take (i + 1)).sum := by
  induction l with
  | nil => intro i hi; simp at hi
  | cons x xs ih =>
    intro i hi
    cases i with
    | zero => simp [cumsum]
    | succ j =>
      have hj : j < xs.length := by simpa using hi
      have hj2 : j < ((cumsum xs).map (x + ·)).length := by
        simpa [cumsum_length] using hj
      have hj3 : j < (cumsum xs).length := by simpa [cumsum_length] using hj
      simp only [cumsum, List.getD_cons_succ]
      rw [List.getD_eq_getElem _ _ hj2, List.getElem_map,
        ← List.getD_eq_getElem _ 0 hj3, ih j hj]
      simp [List.take_succ_cons]

theorem fieldOffsets_length (l : List ℕ) (h : l ≠ []) :
    (fieldOffsets l).length = l.length := by
  have h1 : 1 ≤ l.length := List.length_pos.mpr h
  simp only [fieldOffsets, List.length_cons, List.length_dropLast,
    cumsum_length]
  omega

/-- The `offsets` are the exclusive prefix sums of the field sizes. -/
theorem fieldOffsets_getD (l : List ℕ) :
    ∀ i, i < l.length → (fieldOffsets l).getD i 0 = (l.take i).sum := by
  intro i hi
  cases i with
  | zero => simp [fieldOffsets]
  | succ j =>
    have hj : j < (cumsum l).length - 1 := by
      rw [cumsum_length]; omega
    have hj2 : j < (cumsum l).dropLast.length := by
      simpa [List.length_dropLast] using hj
    have hj3 : j < (cumsum l).length := by omega
    simp only [fieldOffsets, List.getD_cons_succ]
    rw [List.getD_eq_getElem _ _ hj2, List.getElem_dropLast,
      ← List.getD_eq_getElem _ 0 hj3, cumsum_getD l j (by omega)]

/-- Index `j * L + i` of a concatenation of equal-length blocks is index `i`
of block `j`. -/
theorem getD_flatMap_blocks {α β : Type} (g : α → List β) (L : ℕ) (d : β) :
    ∀ (l : List α) (j i : ℕ), (∀ a ∈ l, (g a).length = L) →
      (hj : j < l.length) → i < L →
      (l.flatMap g).getD (j * L + i) d = (g l[j]).getD i d := by
  intro l
  induction l with
  | nil => intro j i _ hj _; simp at hj
  | cons a l ih =>
    intro j i hlen hj hi
    cases j with
    | zero =>
      have ha : (g a).length = L := hlen a (List.mem_cons_self a l)
      simp only [List.flatMap_cons, Nat.zero_mul, Nat.zero_add]
      rw [List.getD_append _ _ _ _ (by omega)]
      rfl
    | succ j =>
      have ha : (g a).length = L := hlen a (List.mem_cons_self a l)
      have hj2 : j < l.length := by simpa using hj
      have harith : (j + 1) * L + i = (g a).length + (j * L + i) := by
        rw [ha, Nat.succ_mul]; omega
      simp only [List.flatMap_cons]
      rw [harith, List.getD_append_right _ _ _ _ (by omega)]
      have : (g a).length + (j * L + i) - (g a).length = j * L + i := by omega
      rw [this]
      exact ih j i (fun b hb => hlen b (List.mem_cons_of_mem a hb)) hj2 hi

theorem sum_take_getD_le (l : List ℕ) (i : ℕ) (hi : i < l.length) :
    (l.take i).sum + l.getD i 0 ≤ l.sum := by
  induction l generalizing i with
  | nil => simp at hi
  | cons x xs ih =>
    cases i with
    | zero => simp
    | succ j =>
      have hj : j < xs.length := by simpa using hi
      have := ih j hj
      simp only [List.take_succ_cons, List.sum_cons, List.getD_cons_succ]
      omega

/-- C2: `MultiIndicesFieldAwareEmbedding.forward` on a `(B, N)` tensor of
valid per-field indices returns a `(B, N*N, E)` tensor whose row
`(b, j*N + i)` is row `inputs[b][i] + (field_sizes[0] + ... +
field_sizes[i-1])` of the `j`-th embedding table. -/
theorem multiIndicesFieldAware_forward_spec (fieldSizes : List ℕ)
    (tables : List (List (List ℚ))) (E : ℕ) (inputs : List (List ℕ))
    (hne : fieldSizes ≠ [])
    (htlen : tables.length = fieldSizes.length)
    (htrows : ∀ t ∈ tables, t.length = fieldSizes.sum)
    (htE : ∀ t ∈ tables, ∀ v ∈ t, v.length = E)
    (hin : ∀ row ∈ inputs, row.length = fieldSizes.length)
    (hbound : ∀ row ∈ inputs, ∀ i, i < row.length →
      row.getD i 0 < fieldSizes.getD i 0) :
    (multiIndicesFieldAwareForward fieldSizes tables inputs).length =
        inputs.length ∧
      (∀ b, b < inputs.length →
        ((multiIndicesFieldAwareForward fieldSizes tables inputs).getD b
          []).length = fieldSizes.length * fieldSizes.length) ∧
      ∀ b j i, b < inputs.length → j < fieldSizes.length →
        i < fieldSizes.length →
        (((multiIndicesFieldAwareForward fieldSizes tables inputs).getD b
            []).getD (j * fieldSizes.length + i) [] =
          (tables.getD j []).getD
            ((inputs.getD b []).getD i 0 + (fieldSizes.take i).sum) []) ∧
        ((((multiIndicesFieldAwareForward fieldSizes tables inputs).getD b
            []).getD (j * fieldSizes.length + i) []).length = E) := by
  set N := fieldSizes.length with hN
  have hoff_len : (fieldOffsets fieldSizes).length = N :=
    fieldOffsets_length fieldSizes hne
  -- the per-row computation
  have hrowlen : ∀ row ∈ inputs,
      (List.zipWith (· + ·) row (fieldOffsets fieldSizes)).length = N := by
    intro row hrow
    rw [List.length_zipWith, hin row hrow, hoff_len, Nat.min_self]
  have hblock : ∀ row ∈ inputs, ∀ t ∈ tables,
      ((List.zipWith (· + ·) row (fieldOffsets fieldSizes)).map
        (fun idx => t.getD idx [])).length = N := by
    intro row hrow t _
    rw [List.length_map]
    exact hrowlen row hrow
  refine ⟨List.length_map _ _, ?_, ?_⟩
  · intro b hb
    have hb2 : b < (multiIndicesFieldAwareForward fieldSizes tables
        inputs).length := by
      simpa [multiIndicesFieldAwareForward] using hb
    unfold multiIndicesFieldAwareForward at hb2 ⊢
    rw [List.getD_eq_getElem _ _ hb2, List.getElem_map]
    have hmem : inputs[b] ∈ inputs := List.getElem_mem hb
    rw [List.length_flatMap]
    have hmap : (tables.map
        (fun table => ((List.zipWith (· + ·) inputs[b]
          (fieldOffsets fieldSizes)).map
            (fun idx => table.getD idx [])).length)) =
        List.replicate tables.length N := by
      rw [List.eq_replicate_iff]
      refine ⟨by simp, ?_⟩
      intro x hx
      obtain ⟨t, ht, rfl⟩ := List.mem_map.mp hx
      exact hblock _ hmem t ht
    simp only [Function.comp_def]
    rw [hmap, List.sum_replicate, smul_eq_mul, htlen]
  · intro b j i hb hj hi
    have hb2 : b < (multiIndicesFieldAwareForward fieldSizes tables
        inputs).length := by
      simpa [multiIndicesFieldAwareForward] using hb
    have hmem : inputs[b] ∈ inputs := List.getElem_mem hb
    have hjt : j < tables.length := by omega
    have hrow_eq : (multiIndicesFieldAwareForward fieldSizes tables
        inputs).getD b [] =
        tables.flatMap (fun table =>
          (List.zipWith (· + ·) inputs[b] (fieldOffsets fieldSizes)).map
            (fun idx => table.getD idx [])) := by
      unfold multiIndicesFieldAwareForward at hb2 ⊢
      rw [List.getD_eq_getElem _ _ hb2, List.getElem_map]
    rw [hrow_eq]
    rw [getD_flatMap_blocks _ N _ tables j i
      (fun t ht => hblock _ hmem t ht) hjt hi]
    have hilen : i < (List.zipWith (· + ·) inputs[b]
        (fieldOffsets fieldSizes)).length := by
      rw [hrowlen _ hmem]; exact hi
    have hmaplen : i < ((List.zipWith (· + ·) inputs[b]
        (fieldOffsets fieldSizes)).map
          (fun idx => tables[j].getD idx [])).length := by
      simpa using hilen
    rw [List.getD_eq_getElem _ _ hmaplen, List.getElem_map,
      List.getElem_zipWith]
    have hrl : inputs[b].length = N := hin _ hmem
    have hii : i < inputs[b].length := by omega
    have hio : i < (fieldOffsets fieldSizes).length := by omega
    have hval : inputs[b][i] + (fieldOffsets fieldSizes)[i] =
        (inputs.getD b []).getD i 0 + (fieldSizes.take i).sum := by
      rw [List.getD_eq_getElem inputs _ hb, List.getD_eq_getElem _ _ hii,
        ← List.getD_eq_getElem _ 0 hio, fieldOffsets_getD fieldSizes i hi]
    constructor
    · rw [hval, List.getD_eq_getElem tables _ hjt]
    · rw [hval]
      have hidx : (inputs.getD b []).getD i 0 + (fieldSizes.take i).sum <
          fieldSizes.sum := by
        have h1 : (inputs.getD b []).getD i 0 < fieldSizes.getD i 0 := by
          rw [List.getD_eq_getElem inputs _ hb]
          exact hbound _ hmem i hii
        have h2 := sum_take_getD_le fieldSizes i hi
        omega
      have hjmem : tables[j] ∈ tables := List.getElem_mem hjt
      have hjrows : tables[j].length = fieldSizes.sum := htrows _ hjmem
      have hidx2 : (inputs.getD b []).getD i 0 + (fieldSizes.take i).sum <
          tables[j].length := by omega
      rw [List.getD_eq_getElem _ _ hidx2]
      exact htE _ hjmem _ (List.getElem_mem hidx2)

/-- Witness for C2: two fields of sizes 2 and 3, two `5 × 1` tables, one
batch row `[1, 2]`. -/
theorem multiIndicesFieldAware_forward_spec_witness :
    (([2, 3] : List ℕ) ≠ [] ∧
      (∀ row ∈ [[(10 : ℚ)], [11], [12], [13], [14]],
        row.length = 1)) ∧
      ((multiIndicesFieldAwareForward [2, 3]
          [[[(10 : ℚ)], [11], [12], [13], [14]],
            [[(20 : ℚ)], [21], [22], [23], [24]]] [[1, 2]]).length =
        [[1, 2]].length ∧
      (∀ b, b < [[1, 2]].length →
        ((multiIndicesFieldAwareForward [2, 3]
          [[[(10 : ℚ)], [11], [12], [13], [14]],
            [[(20 : ℚ)], [21], [22], [23], [24]]] [[1, 2]]).getD b
          []).length = [2, 3].length * [2, 3].length) ∧
      ∀ b j i, b < [[1, 2]].length → j < [2, 3].length →
        i < [2, 3].length →
        (((multiIndicesFieldAwareForward [2, 3]
            [[[(10 : ℚ)], [11], [12], [13], [14]],
              [[(20 : ℚ)], [21], [22], [23], [24]]] [[1, 2]]).getD b
            []).getD (j * [2, 3].length + i) [] =
          ([[[(10 : ℚ)], [11], [12], [13], [14]],
            [[(20 : ℚ)], [21], [22], [23], [24]]].getD j []).getD
            (([[1, 2]].getD b []).getD i 0 + ([2, 3].take i).sum) []) ∧
        ((((multiIndicesFieldAwareForward [2, 3]
            [[[(10 : ℚ)], [11], [12], [13], [14]],
              [[(20 : ℚ)], [21], [22], [23], [24]]] [[1, 2]]).getD b
            []).getD (j * [2, 3].length + i) []).length = 1)) :=
  ⟨⟨by decide, by decide⟩,
    multiIndicesFieldAware_forward_spec [2, 3]
      [[[(10 : ℚ)], [11], [12], [13], [14]],
        [[(20 : ℚ)], [21], [22], [23], [24]]] 1 [[1, 2]]
      (by decide) (by decide) (by decide) (by decide) (by decide)
      (by decide)⟩

/-- Softmax outputs are nonnegative. -/
theorem softmax_nonneg (xs : List ℝ) : ∀ w ∈ softmax xs, 0 ≤ w := by
  intro w hw
  obtain ⟨xi, _, rfl⟩ := List.mem_map.mp hw
  apply div_nonneg (Real.exp_pos xi).le
  apply List.sum_nonneg
  intro y hy
  obtain ⟨z, _, rfl⟩ := List.mem_map.mp hy
  exact (Real.exp_pos z).le

/-- C3: `MixtureOfExpertsLayer.forward` flattens each `(N, E)` input to a
vector of length `N * E`, and row `g` of batch element `b` of the output is
the elementwise product of the concatenation of all experts' outputs on the
flattened input with the output of gate `g` (a linear map followed by
softmax) on the flattened input; the gate's weights are nonnegative. -/
theorem mixtureOfExperts_forward_spec (experts : List (List ℝ → List ℝ))
    (gates : List (List (List ℝ) × List ℝ))
    (embInputs : List (List (List ℝ))) (b g : ℕ)
    (hb : b < embInputs.length) (hg : g < gates.length) :
    (mixtureOfExpertsForward experts gates embInputs).length =
        embInputs.length ∧
      ((mixtureOfExpertsForward experts gates embInputs).getD b []).length =
        gates.length ∧
      ((mixtureOfExpertsForward experts gates embInputs).getD b []).getD g
          [] =
        List.zipWith (· * ·)
          ((experts.map (fun e => e (embInputs.getD b []).flatten)).flatten)
          (softmax (linearForward (gates.getD g ([], [])).1
            (gates.getD g ([], [])).2 (embInputs.getD b []).flatten)) ∧
      ∀ w ∈ softmax (linearForward (gates.getD g ([], [])).1
          (gates.getD g ([], [])).2 (embInputs.getD b []).flatten),
        0 ≤ w := by
  have hb2 : b < (mixtureOfExpertsForward experts gates
      embInputs).length := by
    simpa [mixtureOfExpertsForward] using hb
  have hrow_eq : (mixtureOfExpertsForward experts gates embInputs).getD b
      [] =
      gates.map (fun gt =>
        List.zipWith (· * ·)
          ((experts.map (fun e => e embInputs[b].flatten)).flatten)
          (gateForward gt.1 gt.2 embInputs[b].flatten)) := by
    unfold mixtureOfExpertsForward at hb2 ⊢
    rw [List.getD_eq_getElem _ _ hb2, List.getElem_map]
  have hg2 : g < (gates.map (fun gt =>
      List.zipWith (· * ·)
        ((experts.map (fun e => e embInputs[b].flatten)).flatten)
        (gateForward gt.1 gt.2 embInputs[b].flatten))).length := by
    simpa using hg
  have hgetb : embInputs.getD b [] = embInputs[b] :=
    List.getD_eq_getElem embInputs [] hb
  have hgetg : gates.getD g ([], []) = gates[g] :=
    List.getD_eq_getElem gates ([], []) hg
  refine ⟨List.length_map _ _, ?_, ?_, softmax_nonneg _⟩
  · rw [hrow_eq, List.length_map]
  · rw [hrow_eq, List.getD_eq_getElem _ _ hg2, List.getElem_map, hgetb,
      hgetg]
    rfl

/-- Witness for C3: one identity expert, one gate, one batch element. -/
theorem mixtureOfExperts_forward_spec_witness :
    ((0 : ℕ) < [[[(1 : ℝ)]]].length ∧
        (0 : ℕ) < [([[(1 : ℝ)]], [(0 : ℝ)])].length) ∧
      ((mixtureOfExpertsForward [fun x => x] [([[(1 : ℝ)]], [(0 : ℝ)])]
          [[[(1 : ℝ)]]]).length = [[[(1 : ℝ)]]].length ∧
        ((mixtureOfExpertsForward [fun x => x] [([[(1 : ℝ)]], [(0 : ℝ)])]
          [[[(1 : ℝ)]]]).getD 0 []).length =
          [([[(1 : ℝ)]], [(0 : ℝ)])].length ∧
        ((mixtureOfExpertsForward [fun x => x] [([[(1 : ℝ)]], [(0 : ℝ)])]
            [[[(1 : ℝ)]]]).getD 0 []).getD 0 [] =
          List.zipWith (· * ·)
            (([fun x => x].map
              (fun e => e ([[[(1 : ℝ)]]].getD 0 []).flatten)).flatten)
            (softmax (linearForward
              (([([[(1 : ℝ)]], [(0 : ℝ)])].getD 0 ([], [])).1)
              (([([[(1 : ℝ)]], [(0 : ℝ)])].getD 0 ([], [])).2)
              ([[[(1 : ℝ)]]].getD 0 []).flatten)) ∧
        ∀ w ∈ softmax (linearForward
            (([([[(1 : ℝ)]], [(0 : ℝ)])].getD 0 ([], [])).1)
            (([([[(1 : ℝ)]], [(0 : ℝ)])].getD 0 ([], [])).2)
            ([[[(1 : ℝ)]]].getD 0 []).flatten), 0 ≤ w) :=
  ⟨⟨by decide, by decide⟩,
    mixtureOfExperts_forward_spec [fun x => x] [([[(1 : ℝ)]], [(0 : ℝ)])]
      [[[(1 : ℝ)]]] 0 0 (by decide) (by decide)⟩

/-- The `regularize` fold starting from an already-tensor accumulator. -/
theorem regularize_foldl_tensor (parametes : List (String × List ℝ))
    (nrm : ℕ) (a : ℝ) :
    parametes.foldl
        (fun loss p =>
          if nameHasWeight p.1 then
            loss.add (.tensor (torchNorm p.2 nrm))
          else loss)
        (.tensor a) =
      PyNum.tensor (a + ((parametes.filter
        (fun p => nameHasWeight p.1)).map
          (fun p => torchNorm p.2 nrm)).sum) := by
  induction parametes generalizing a with
  | nil => simp
  | cons p l ih =>
    simp only [List.foldl_cons, List.filter_cons]
    by_cases hp : nameHasWeight p.1
    · rw [if_pos hp, if_pos hp]
      have step : (PyNum.tensor a).add (.tensor (torchNorm p.2 nrm)) =
          PyNum.tensor (a + torchNorm p.2 nrm) := rfl
      rw [step, ih, List.map_cons, List.sum_cons, add_assoc]
    · rw [if_neg hp, if_neg hp, ih]

/-- C10: `regularize` returns `weight_decay` times the sum of the `norm`-th
order norms of exactly the parameters whose name contains `"weight"`; with
no such parameter the result is the plain float `0.0 * weight_decay`, not a
tensor. -/
theorem regularize_spec (parametes : List (String × List ℝ))
    (weight_decay : ℝ) (nrm : ℕ) :
    regularize parametes weight_decay nrm =
      if parametes.any (fun p => nameHasWeight p.1) then
        PyNum.tensor (((parametes.filter (fun p => nameHasWeight p.1)).map
          (fun p => torchNorm p.2 nrm)).sum * weight_decay)
      else PyNum.float (0 * weight_decay) := by
  have main : ∀ l : List (String × List ℝ),
      l.foldl
          (fun loss p =>
            if nameHasWeight p.1 then
              loss.add (.tensor (torchNorm p.2 nrm))
            else loss)
          (PyNum.float 0) =
        if l.any (fun p => nameHasWeight p.1) then
          PyNum.tensor (((l.filter (fun p => nameHasWeight p.1)).map
            (fun p => torchNorm p.2 nrm)).sum)
        else PyNum.float 0 := by
    intro l
    induction l with
    | nil => rfl
    | cons p l ih =>
      simp only [List.foldl_cons, List.any_cons, List.filter_cons]
      by_cases hp : nameHasWeight p.1
      · rw [if_pos hp, if_pos hp]
        have step : (PyNum.float 0).add (.tensor (torchNorm p.2 nrm)) =
            PyNum.tensor (0 + torchNorm p.2 nrm) := rfl
        rw [step, regularize_foldl_tensor, zero_add, hp,
          Bool.true_or, if_pos rfl, List.map_cons, List.sum_cons]
      · rw [if_neg hp, if_neg hp, ih]
        have hpb : nameHasWeight p.1 = false := by
          simpa using hp
        rw [hpb, Bool.false_or]
  simp only [regularize, main]
  by_cases h : parametes.any (fun p => nameHasWeight p.1)
  · rw [if_pos h, if_pos h]
    rfl
  · rw [if_neg h, if_neg h]
    rfl

end Torecsys
